import Mathlib

/-!
Verification of the playback-control core of `media_server.py` (an MCP media
server).  The Python source is shallowly embedded: pure helpers become Lean
functions, the mutable globals `current_mpv_process` / `currently_playing_file`
become an explicit `ServerState`, and the outside world (filesystem, socket,
process operations) is an explicit environment record consumed by each
operation.  Floating-point scores are modelled as rationals.
-/

namespace MediaServer

/-- Boolean test that the first character list is a prefix of the second
(model of Python `str.startswith`, used to build the substring test). -/
def leadsList : List Char → List Char → Bool
  | [], _ => true
  | _ :: _, [] => false
  | a :: as, b :: bs => a == b && leadsList as bs

/-- Boolean test that the first character list occurs as a contiguous
substring of the second (model of Python's `x in y` on strings). -/
def withinList : List Char → List Char → Bool
  | a, [] => a.isEmpty
  | a, b :: bs => leadsList a (b :: bs) || withinList a bs

/-- ASCII lowercase of one character (model of `str.lower` per character;
both Python and this model leave non-ASCII letters of the catalog names
outside the claims' scope). -/
def lowerChar (c : Char) : Char :=
  if 65 ≤ c.toNat ∧ c.toNat ≤ 90 then Char.ofNat (c.toNat + 32) else c

/-- Model of Python `str.lower`. -/
def lowerStr (s : String) : String := ⟨s.data.map lowerChar⟩

/-- Lexicographic comparison of character lists by code point (model of
Python string `<=`, the order used by `sorted`). -/
def charListLe : List Char → List Char → Bool
  | [], _ => true
  | _ :: _, [] => false
  | a :: as, b :: bs =>
    if a.toNat < b.toNat then true
    else if b.toNat < a.toNat then false
    else charListLe as bs

/-- Python string comparison on names. -/
def nameLe (a b : String) : Bool := charListLe a.data b.data

/-- Index of the last occurrence of `'.'` in a character list (model of
Python `str.rfind('.')`, returning `none` instead of `-1`). -/
def lastDotIdx : List Char → Option Nat
  | [] => none
  | c :: cs =>
    match lastDotIdx cs with
    | some i => some (i + 1)
    | none => if c = '.' then some 0 else none

/-- Model of `pathlib.PurePath.stem` for a bare file name: the name without
its final suffix; the suffix is dropped only when the last dot sits strictly
inside the name (`0 < i < len - 1`). -/
def strStem (s : String) : String :=
  match lastDotIdx s.data with
  | some i => if 0 < i ∧ i < s.data.length - 1 then ⟨s.data.take i⟩ else s
  | none => s

/-- Model of `pathlib.PurePath.suffix` for a bare file name. -/
def pathSuffix (s : String) : String :=
  match lastDotIdx s.data with
  | some i => if 0 < i ∧ i < s.data.length - 1 then ⟨s.data.drop i⟩ else ""
  | none => ""

/-- Model of Python `"\n".join`, used for the available-files listing. -/
def joinLines : List String → String
  | [] => ""
  | [x] => x
  | x :: xs => x ++ "\n" ++ joinLines xs

/-- Modelled from the spec: the score produced by the external
`difflib.SequenceMatcher.ratio` dependency (not part of this repository) is
"a normalized string-similarity ratio (edit-distance/LCS-based, range
[0,1])"; we realise it as the length of a longest common subsequence.  Only
the `[0,1]` range and concrete zero/one cases are relied on by the claims. -/
def lcsLen : List Char → List Char → Nat
  | [], _ => 0
  | _ :: _, [] => 0
  | a :: as, b :: bs =>
    if a = b then lcsLen as bs + 1
    else max (lcsLen (a :: as) bs) (lcsLen as (b :: bs))
termination_by a b => a.length + b.length

/-- Modelled from the spec: the normalized similarity score
`2.0 * matches / (len(a) + len(b))`, with the empty-input convention of
`difflib._calculate_ratio` (`1.0` when both inputs are empty). -/
def ratioScore (a b : List Char) : ℚ :=
  if a.length + b.length = 0 then 1
  else (2 * (lcsLen a b : ℚ)) / ((a.length : ℚ) + (b.length : ℚ))

/-- Embedding of `fuzzy_match_filename` (media_server.py lines 55-69):
lowercase the query and the extension-stripped file name, return `1.0` on a
substring hit in either direction, otherwise the similarity ratio. -/
def fuzzy_match_filename (query : String) (filename : String) : ℚ :=
  let name_without_ext := lowerStr (strStem filename)
  let query_lower := lowerStr query
  if withinList query_lower.data name_without_ext.data
      || withinList name_without_ext.data query_lower.data then 1
  else ratioScore query_lower.data name_without_ext.data

/-- One catalog entry, mirroring the dict built by `get_media_files`. -/
structure MediaRec where
  name : String
  path : String
  size : Nat
  ext : String
deriving DecidableEq

/-- The minimum similarity threshold of `find_best_match`. -/
def threshold : ℚ := 3 / 10

/-- The loop body of `find_best_match`: walk the records keeping the best
match and best score, replacing only on a strictly greater score that also
meets the threshold. -/
def fbmGo (query : String) : List MediaRec → Option MediaRec → ℚ → Option MediaRec
  | [], best, _ => best
  | f :: rest, best, best_score =>
    let score := fuzzy_match_filename query f.name
    if best_score < score ∧ threshold ≤ score then fbmGo query rest (some f) score
    else fbmGo query rest best best_score

/-- Embedding of `find_best_match` (media_server.py lines 72-90). -/
def find_best_match (query : String) (media_files : List MediaRec) : Option MediaRec :=
  if media_files = [] then none
  else fbmGo query media_files none 0

/-- The fixed supported-extension set `MEDIA_EXTENSIONS`. -/
def MEDIA_EXTENSIONS : List String :=
  [".mp4", ".mkv", ".avi", ".mov", ".wmv", ".flv", ".webm", ".m4v", ".mpg", ".mpeg"]

/-- Rendering of the `MEDIA_DIR` path (`Path.home() / "Media" / "MOVIES"`);
the home-directory prefix is environment dependent and modelled as a fixed
string, which no claim depends on. -/
def mediaDirStr : String := "~/Media/MOVIES"

/-- One directory entry as observed by `MEDIA_DIR.iterdir()`, together with
the environment's answer to the per-entry operations: whether `is_file()`
holds and whether the per-entry I/O (`item.stat()`) raises. -/
structure EntryInfo where
  name : String
  isFile : Bool
  size : Nat
  statFails : Bool
deriving DecidableEq

/-- The filesystem environment of one `get_media_files` call. -/
structure DirEnv where
  dirExists : Bool
  entries : List EntryInfo

/-- The filter of the scan loop:
`item.is_file() and item.suffix.lower() in MEDIA_EXTENSIONS`. -/
def entryWanted (e : EntryInfo) : Bool :=
  e.isFile && MEDIA_EXTENSIONS.contains (lowerStr (pathSuffix e.name))

/-- The record built for one accepted entry. -/
def mkRec (e : EntryInfo) : MediaRec :=
  ⟨e.name, mediaDirStr ++ "/" ++ e.name, e.size, pathSuffix e.name⟩

/-- The scan loop of `get_media_files`: the `try` block wraps the whole
`for`, so the first per-entry failure aborts the loop, keeping the records
accumulated so far. -/
def scanGo : List EntryInfo → List MediaRec → List MediaRec
  | [], acc => acc
  | e :: rest, acc =>
    if entryWanted e then
      if e.statFails then acc
      else scanGo rest (acc ++ [mkRec e])
    else scanGo rest acc

/-- The prefix of the directory listing that the aborting scan loop actually
processes: everything before the first wanted entry whose stat fails. -/
def scanPart : List EntryInfo → List EntryInfo
  | [] => []
  | e :: rest =>
    if entryWanted e && e.statFails then []
    else e :: scanPart rest

/-- Insertion step of a stable sort by `name` (model of Python
`sorted(..., key=lambda x: x['name'])`). -/
def insertByName (x : MediaRec) : List MediaRec → List MediaRec
  | [] => [x]
  | y :: ys => if nameLe x.name y.name then x :: y :: ys else y :: insertByName x ys

/-- Stable sort by `name`. -/
def sortByName (l : List MediaRec) : List MediaRec :=
  l.foldr insertByName []

/-- Embedding of `get_media_files` (media_server.py lines 191-209). -/
def get_media_files (env : DirEnv) : List MediaRec :=
  if ¬env.dirExists then []
  else sortByName (scanGo env.entries [])

/-- One element of an MPV IPC command array (a JSON string or number). -/
inductive JVal where
  | str (s : String)
  | num (q : ℚ)
deriving DecidableEq

/-- Rendering of one command element (Python `str(x)` inside
`' '.join(map(str, command))`; numeric rendering abstracted). -/
def jvalStr : JVal → String
  | .str s => s
  | .num q => toString q

/-- Model of `' '.join` on a list of strings. -/
def joinSpaced : List String → String
  | [] => ""
  | [x] => x
  | x :: xs => x ++ " " ++ joinSpaced xs

/-- Model of `' '.join(map(str, command))`. -/
def joinCmd (c : List JVal) : String :=
  joinSpaced (c.map jvalStr)

/-- Outcome of `socket.connect` on the IPC socket. -/
inductive ConnectOutcome where
  | ok
  | fileNotFound
  | connRefused
  | otherExc (msg : String)
deriving DecidableEq

/-- Condition of the reply read from the socket: the peer closed without
data, the bytes failed to parse as JSON (`msg` is the exception text), or a
JSON object parsed with the given `error` field. -/
inductive ReplyOutcome where
  | empty
  | malformed (msg : String)
  | parsed (errField : Option String)
deriving DecidableEq

/-- The channel condition of one `send_mpv_command` call. -/
structure IpcEnv where
  socketExists : Bool
  connect : ConnectOutcome
  reply : ReplyOutcome

/-- Embedding of `send_mpv_command` (media_server.py lines 138-188).  The
result is an `Option` because the Python function has a fall-through path
with no `return`: when a response is expected and the reply is empty, it
returns `None` instead of a `(bool, str)` pair. -/
def send_mpv_command (command : List JVal) (expect_response : Bool) (env : IpcEnv) :
    Option (Bool × String) :=
  if ¬env.socketExists then some (false, "MPV is not running or IPC socket not found")
  else
    match env.connect with
    | .fileNotFound => some (false, "MPV IPC socket not found")
    | .connRefused => some (false, "Could not connect to MPV")
    | .otherExc e => some (false, "Error communicating with MPV: " ++ e)
    | .ok =>
      if expect_response then
        match env.reply with
        | .empty => none
        | .malformed e => some (false, "Error communicating with MPV: " ++ e)
        | .parsed err =>
          if err = some "success" then
            some (true, "Command executed: " ++ joinCmd command)
          else
            some (false, "MPV error: " ++ err.getD "unknown")
      else some (true, "Command sent: " ++ joinCmd command)

/-- The two module-level globals of the server, as one explicit state. -/
structure ServerState where
  proc : Option Nat
  currentFile : Option String
deriving DecidableEq

/-- Observable process actions taken by `stop_current_playback`, recorded so
that forced termination can be reasoned about. -/
inductive StopEvent where
  | sentQuit
  | killed
deriving DecidableEq

/-- The environment of one `stop_current_playback` call: the IPC channel
condition, whether `wait(timeout=2)` raises `TimeoutExpired`, and whether a
process operation (`wait`/`kill`) raises some other exception (at most one
injected fault). -/
structure StopEnv where
  ipc : IpcEnv
  waitTimesOut : Bool
  procOpFails : Option String

/-- Result of `stop_current_playback`. -/
structure StopResult where
  state : ServerState
  ok : Bool
  msg : String
  events : List StopEvent
deriving DecidableEq

/-- Embedding of `stop_current_playback` (media_server.py lines 93-135).
Paths: no tracked process → trivial success; socket present → send `quit`
and, only if the send reported success, wait with a 2-second timeout and
force-kill on `TimeoutExpired`; socket absent → force-kill; any exception →
best-effort kill, unconditional state reset, failure result. -/
def stop_current_playback (env : StopEnv) (s : ServerState) : StopResult :=
  match s.proc with
  | none => ⟨s, true, "No media currently playing", []⟩
  | some _ =>
    let cleared : ServerState := ⟨none, none⟩
    if env.ipc.socketExists then
      match send_mpv_command [JVal.str "quit"] false env.ipc with
      | some (true, _) =>
        match env.procOpFails with
        | some e => ⟨cleared, false, "Error stopping playback: " ++ e, [.sentQuit, .killed]⟩
        | none =>
          if env.waitTimesOut then ⟨cleared, true, "Playback stopped", [.sentQuit, .killed]⟩
          else ⟨cleared, true, "Playback stopped", [.sentQuit]⟩
      | some (false, _) => ⟨cleared, true, "Playback stopped", [.sentQuit]⟩
      | none => ⟨cleared, false, "Error stopping playback: unpack error", [.killed]⟩
    else
      match env.procOpFails with
      | some e => ⟨cleared, false, "Error stopping playback: " ++ e, [.killed]⟩
      | none => ⟨cleared, true, "Playback stopped", [.killed]⟩

/-- Value of `sys.platform`. -/
inductive Platform where
  | linux
  | darwin
  | win32
  | other (name : String)
deriving DecidableEq

/-- The environment of one `play_media_file` call: the platform, which
player binaries `which`/`where` finds, whether `Popen` (or the socket
unlink) raises, the pid of a freshly spawned tracked process, and the
environment used by the preemptive stop of a previous process. -/
structure PlayEnv where
  platform : Platform
  fileExists : String → Bool
  mpvAvailable : Bool
  fallbackAvail : String → Bool
  spawnExc : Option String
  newPid : Nat
  stopEnv : StopEnv

/-- Result of `play_media_file`. -/
structure PlayResult where
  state : ServerState
  ok : Bool
  msg : String

/-- Embedding of `play_media_file` (media_server.py lines 212-327).  Note
that every non-MPV fallback launcher (`vlc`/`mplayer`/`xdg-open` on Linux,
`open` on macOS, `os.startfile` on Windows) spawns without assigning
`current_mpv_process`, yet still assigns `currently_playing_file`. -/
def play_media_file (filename : String) (loop : Bool) (env : PlayEnv) (s : ServerState) :
    PlayResult :=
  if ¬env.fileExists filename then ⟨s, false, "File not found: " ++ filename⟩
  else if ¬MEDIA_EXTENSIONS.contains (lowerStr (pathSuffix filename)) then
    ⟨s, false, "Not a supported media file: " ++ filename⟩
  else
    let s1 := if s.proc ≠ none then (stop_current_playback env.stopEnv s).state else s
    match env.spawnExc with
    | some e => ⟨s1, false, "Error playing file: " ++ e⟩
    | none =>
      match env.platform with
      | .linux =>
        if env.mpvAvailable then
          ⟨⟨some env.newPid, some filename⟩, true,
            "Playing " ++ filename ++ " with MPV (IPC enabled)"⟩
        else
          match ["vlc", "mplayer", "xdg-open"].find? (fun p => env.fallbackAvail p) with
          | some p =>
            ⟨⟨s1.proc, some filename⟩, true,
              "Playing " ++ filename ++ " with " ++ p ++ " (no IPC control)"⟩
          | none => ⟨s1, false, "No media player found (tried: mpv, vlc, mplayer, xdg-open)"⟩
      | .darwin =>
        if env.mpvAvailable then
          ⟨⟨some env.newPid, some filename⟩, true,
            "Playing " ++ filename ++ " with MPV (IPC enabled)"⟩
        else
          ⟨⟨s1.proc, some filename⟩, true, "Playing " ++ filename ++ " (no IPC control)"⟩
      | .win32 =>
        if env.mpvAvailable then
          ⟨⟨some env.newPid, some filename⟩, true,
            "Playing " ++ filename ++ " with MPV (IPC enabled)"⟩
        else
          ⟨⟨s1.proc, some filename⟩, true, "Playing " ++ filename ++ " (no IPC control)"⟩
      | .other name => ⟨s1, false, "Unsupported platform: " ++ name⟩

/-- The tool vocabulary of `call_tool`. -/
inductive ToolCall where
  | listMovies
  | playMovie (filename : String) (loop : Bool)
  | pausePlayback
  | stopPlayback
  | seekForward (seconds : ℚ)
  | seekBackward (seconds : ℚ)
  | nextChapter
  | prevChapter
  | toggleLoop
  | restartPlayback
  | getCurrentPlaying
  | unknownTool (n : String)

/-- The full environment of one `call_tool` invocation. -/
structure ToolEnv where
  dir : DirEnv
  ipc : IpcEnv
  play : PlayEnv
  stop : StopEnv

/-- Result of one `call_tool` invocation.  `res` is the returned text
(`none` models the uncaught `TypeError` raised when tuple-unpacking the
`None` that `send_mpv_command` can return); `flag` is the `success` boolean
bound by the branch, when the branch binds one; `sent` records the IPC
command arrays handed to `send_mpv_command`; `usedFuzzy` records whether the
fuzzy-match computation (`find_best_match`) was evaluated; `chosen` records
the file name handed to `play_media_file`, when any. -/
structure CallResult where
  state : ServerState
  res : Option String
  flag : Option Bool
  sent : List (List JVal)
  usedFuzzy : Bool
  chosen : Option String

/-- The not-found message of the `play_movie` branch. -/
def notFoundMsg (query : String) (media_files : List MediaRec) : String :=
  "No media file found matching \x27" ++ query ++ "\x27. Available files:\n"
    ++ joinLines (media_files.map (fun f => "- " ++ f.name))

/-- The fuzzy-match note appended to the play message (Python formats the
confidence with `:.2f`; the numeric rendering is abstracted). -/
def fuzzyNote (matched query : String) (score : ℚ) : String :=
  "\n\nNote: Matched \x27" ++ matched ++ "\x27 from query \x27" ++ query
    ++ "\x27 (confidence: " ++ toString score ++ ")"

/-- The `list_movies` listing (sizes are rendered in MB with `:.2f` in
Python; the numeric rendering is abstracted). -/
def listingMsg (media_files : List MediaRec) : String :=
  "Found " ++ toString media_files.length ++ " media file(s) in " ++ mediaDirStr ++ ":\n\n"
    ++ String.join (media_files.map (fun f =>
        f.name ++ "\n   Path: " ++ f.path ++ "\n   Size: " ++ toString f.size
          ++ " bytes\n   Type: " ++ f.ext ++ "\n\n"))

/-- Shared shape of the seven pure IPC control branches of `call_tool`:
send the command expecting a response and surface the message. -/
def ipcToolResult (c : List JVal) (env : ToolEnv) (s : ServerState) : CallResult :=
  match send_mpv_command c true env.ipc with
  | some (ok, m) => ⟨s, some m, some ok, [c], false, none⟩
  | none => ⟨s, none, none, [c], false, none⟩

/-- Embedding of the `call_tool` dispatcher (media_server.py lines 455-575). -/
def call_tool (t : ToolCall) (env : ToolEnv) (s : ServerState) : CallResult :=
  match t with
  | .listMovies =>
    let media_files := get_media_files env.dir
    if media_files = [] then
      if ¬env.dir.dirExists then
        ⟨s, some ("Media directory does not exist: " ++ mediaDirStr), none, [], false, none⟩
      else
        ⟨s, some ("No media files found in " ++ mediaDirStr), none, [], false, none⟩
    else ⟨s, some (listingMsg media_files), none, [], false, none⟩
  | .playMovie query loop =>
    if query = "" then
      ⟨s, some "Error: filename parameter is required", none, [], false, none⟩
    else
      let media_files := get_media_files env.dir
      match media_files.find? (fun f => decide (lowerStr f.name = lowerStr query)) with
      | some e =>
        let pr := play_media_file e.name loop env.play s
        ⟨pr.state, some pr.msg, some pr.ok,
          if s.proc ≠ none ∧ env.play.stopEnv.ipc.socketExists then [[JVal.str "quit"]] else [],
          false, some e.name⟩
      | none =>
        match find_best_match query media_files with
        | some b =>
          let pr := play_media_file b.name loop env.play s
          let match_score := fuzzy_match_filename query b.name
          ⟨pr.state, some (pr.msg ++ fuzzyNote b.name query match_score), some pr.ok,
            if s.proc ≠ none ∧ env.play.stopEnv.ipc.socketExists then [[JVal.str "quit"]] else [],
            true, some b.name⟩
        | none =>
          ⟨s, some (notFoundMsg query media_files), none, [], true, none⟩
  | .pausePlayback => ipcToolResult [.str "cycle", .str "pause"] env s
  | .stopPlayback =>
    let r := stop_current_playback env.stop s
    ⟨r.state, some r.msg, some r.ok,
      if StopEvent.sentQuit ∈ r.events then [[JVal.str "quit"]] else [], false, none⟩
  | .seekForward seconds => ipcToolResult [.str "seek", .num seconds, .str "relative"] env s
  | .seekBackward seconds => ipcToolResult [.str "seek", .num (-seconds), .str "relative"] env s
  | .nextChapter => ipcToolResult [.str "add", .str "chapter", .num 1] env s
  | .prevChapter => ipcToolResult [.str "add", .str "chapter", .num (-1)] env s
  | .toggleLoop => ipcToolResult [.str "cycle", .str "loop-file"] env s
  | .restartPlayback => ipcToolResult [.str "seek", .num 0, .str "absolute"] env s
  | .getCurrentPlaying =>
    match s.currentFile with
    | some f => ⟨s, some ("Currently playing: " ++ f), none, [], false, none⟩
    | none => ⟨s, some "No media is currently playing", none, [], false, none⟩
  | .unknownTool n => ⟨s, some ("Unknown tool: " ++ n), none, [], false, none⟩

/-- The PlaybackState invariant stated by the data model: `currentFile` is
set only while `processHandle` is set. -/
def stateInvariant (s : ServerState) : Prop :=
  s.currentFile.isSome → s.proc.isSome

/-- The relative offset carried by a three-element seek command. -/
def offsetOf : List JVal → ℚ
  | [_, .num q, _] => q
  | _ => 0

/-! ### Lemmas about the similarity score -/

theorem lcsLen_le_left : ∀ a b : List Char, lcsLen a b ≤ a.length := by
  intro a
  induction a with
  | nil => intro b; simp [lcsLen]
  | cons x as ih =>
    intro b
    induction b with
    | nil => simp [lcsLen]
    | cons y bs ihb =>
      by_cases h : x = y
      · simpa [lcsLen, h] using ih bs
      · simp only [lcsLen, if_neg h, List.length_cons]
        exact le_trans (max_le ihb (le_trans (ih (y :: bs)) (Nat.le_succ _)))
          (le_refl _)

theorem lcsLen_le_right : ∀ a b : List Char, lcsLen a b ≤ b.length := by
  intro a
  induction a with
  | nil => intro b; simp [lcsLen]
  | cons x as ih =>
    intro b
    induction b with
    | nil => simp [lcsLen]
    | cons y bs ihb =>
      by_cases h : x = y
      · simpa [lcsLen, h] using ih bs
      · simp only [lcsLen, if_neg h, List.length_cons]
        exact max_le (le_trans ihb (Nat.le_succ _)) (ih (y :: bs))

theorem lcsLen_eq_zero_of_disjoint :
    ∀ a b : List Char, (∀ c ∈ a, c ∉ b) → lcsLen a b = 0 := by
  intro a
  induction a with
  | nil => intro b _; simp [lcsLen]
  | cons x as ih =>
    intro b
    induction b with
    | nil => intro _; simp [lcsLen]
    | cons y bs ihb =>
      intro hd
      have hxy : x ≠ y := by
        intro hxy
        exact hd x (List.mem_cons_self _ _) (hxy ▸ List.mem_cons_self _ _)
      have h1 : lcsLen (x :: as) bs = 0 := by
        apply ihb
        intro c hc hcb
        exact hd c hc (List.mem_cons_of_mem _ hcb)
      have h2 : lcsLen as (y :: bs) = 0 := by
        apply ih
        intro c hc hcb
        exact hd c (List.mem_cons_of_mem _ hc) hcb
      simp [lcsLen, hxy, h1, h2]

theorem ratioScore_nonneg (a b : List Char) : 0 ≤ ratioScore a b := by
  unfold ratioScore
  split
  · norm_num
  · positivity

theorem ratioScore_le_one (a b : List Char) : ratioScore a b ≤ 1 := by
  unfold ratioScore
  split
  · norm_num
  · rename_i h
    have hpos : (0 : ℚ) < (a.length : ℚ) + (b.length : ℚ) := by
      have hn : 0 < a.length + b.length := Nat.pos_of_ne_zero h
      exact_mod_cast hn
    rw [div_le_one hpos]
    have h1 : (lcsLen a b : ℚ) ≤ a.length := by exact_mod_cast lcsLen_le_left a b
    have h2 : (lcsLen a b : ℚ) ≤ b.length := by exact_mod_cast lcsLen_le_right a b
    linarith

theorem threshold_pos : 0 < threshold := by norm_num [threshold]

theorem fuzzy_nonneg (q f : String) : 0 ≤ fuzzy_match_filename q f := by
  unfold fuzzy_match_filename
  by_cases h : (withinList (lowerStr q).data (lowerStr (strStem f)).data
      || withinList (lowerStr (strStem f)).data (lowerStr q).data) = true
  · simp [h]
  · simp [h, ratioScore_nonneg]

theorem fuzzy_le_one (q f : String) : fuzzy_match_filename q f ≤ 1 := by
  unfold fuzzy_match_filename
  by_cases h : (withinList (lowerStr q).data (lowerStr (strStem f)).data
      || withinList (lowerStr (strStem f)).data (lowerStr q).data) = true
  · simp [h]
  · simp [h, ratioScore_le_one]

theorem fuzzy_eq_one_of_within (q f : String)
    (h : withinList (lowerStr q).data (lowerStr (strStem f)).data = true
        ∨ withinList (lowerStr (strStem f)).data (lowerStr q).data = true) :
    fuzzy_match_filename q f = 1 := by
  unfold fuzzy_match_filename
  rcases h with h | h <;> simp [h]

theorem fuzzy_eq_ratio_of_not_within (q f : String)
    (h1 : withinList (lowerStr q).data (lowerStr (strStem f)).data = false)
    (h2 : withinList (lowerStr (strStem f)).data (lowerStr q).data = false) :
    fuzzy_match_filename q f = ratioScore (lowerStr q).data (lowerStr (strStem f)).data := by
  unfold fuzzy_match_filename
  simp [h1, h2]

/-! ### Lemmas about the best-match selection loop -/

theorem fbmGo_eq_of_all_low (q : String) :
    ∀ (l : List MediaRec) (best : Option MediaRec) (bs : ℚ),
      (∀ f ∈ l, fuzzy_match_filename q f.name < threshold) →
      fbmGo q l best bs = best := by
  intro l
  induction l with
  | nil => intro best bs _; rfl
  | cons f rest ih =>
    intro best bs h
    have hf := h f (List.mem_cons_self _ _)
    have hcond : ¬(bs < fuzzy_match_filename q f.name
        ∧ threshold ≤ fuzzy_match_filename q f.name) := by
      rintro ⟨_, h2⟩; linarith
    simp only [fbmGo, if_neg hcond]
    exact ih best bs (fun g hg => h g (List.mem_cons_of_mem _ hg))

theorem fbmGo_spec (q : String) :
    ∀ (l : List MediaRec) (best : Option MediaRec) (bs : ℚ),
      ((best = none ∧ bs = 0) ∨
        (∃ r0, best = some r0 ∧ bs = fuzzy_match_filename q r0.name ∧ threshold ≤ bs)) →
      (fbmGo q l best bs = none →
        best = none ∧ ∀ f ∈ l, fuzzy_match_filename q f.name < threshold) ∧
      (∀ r, fbmGo q l best bs = some r →
        threshold ≤ fuzzy_match_filename q r.name ∧
        ((best = some r ∧
            ∀ f ∈ l, fuzzy_match_filename q f.name ≤ fuzzy_match_filename q r.name) ∨
          (bs < fuzzy_match_filename q r.name ∧
            ∃ pre post, l = pre ++ r :: post ∧
              (∀ f ∈ pre, fuzzy_match_filename q f.name < fuzzy_match_filename q r.name) ∧
              (∀ f ∈ post,
                fuzzy_match_filename q f.name ≤ fuzzy_match_filename q r.name)))) := by
  intro l
  induction l with
  | nil =>
    intro best bs hinv
    constructor
    · intro h
      simp only [fbmGo] at h
      exact ⟨h, by simp⟩
    · intro r h
      simp only [fbmGo] at h
      rcases hinv with ⟨hb, _⟩ | ⟨r0, hb, hbs, hθ⟩
      · rw [hb] at h; cases h
      · rw [hb] at h
        have hr : r0 = r := by injection h
        subst hr
        exact ⟨hbs ▸ hθ, Or.inl ⟨hb, by simp⟩⟩
  | cons f rest ih =>
    intro best bs hinv
    by_cases hcond : bs < fuzzy_match_filename q f.name
        ∧ threshold ≤ fuzzy_match_filename q f.name
    · have hstep : fbmGo q (f :: rest) best bs
          = fbmGo q rest (some f) (fuzzy_match_filename q f.name) := by
        simp only [fbmGo, if_pos hcond]
      have IH := ih (some f) (fuzzy_match_filename q f.name)
        (Or.inr ⟨f, rfl, rfl, hcond.2⟩)
      constructor
      · intro h
        rw [hstep] at h
        exact absurd (IH.1 h).1 (by simp)
      · intro r h
        rw [hstep] at h
        obtain ⟨hθr, hcase⟩ := IH.2 r h
        refine ⟨hθr, Or.inr ?_⟩
        rcases hcase with ⟨hfr, hrest⟩ | ⟨hlt, pre, post, hsplit, hpre, hpost⟩
        · have hf : f = r := by injection hfr
          subst hf
          exact ⟨hcond.1, [], rest, by simp, by simp, hrest⟩
        · refine ⟨lt_trans hcond.1 hlt, f :: pre, post, by simp [hsplit], ?_, hpost⟩
          intro g hg
          rcases List.mem_cons.mp hg with rfl | hg'
          · exact hlt
          · exact hpre g hg'
    · have hstep : fbmGo q (f :: rest) best bs = fbmGo q rest best bs := by
        simp only [fbmGo, if_neg hcond]
      have hsf : fuzzy_match_filename q f.name ≤ bs
          ∨ fuzzy_match_filename q f.name < threshold := by
        by_contra hc
        push_neg at hc
        exact hcond hc
      have IH := ih best bs hinv
      constructor
      · intro h
        rw [hstep] at h
        obtain ⟨hbn, hall⟩ := IH.1 h
        refine ⟨hbn, ?_⟩
        intro g hg
        rcases List.mem_cons.mp hg with rfl | hg'
        · rcases hinv with ⟨_, hbs0⟩ | ⟨r0, hb, _, _⟩
          · rcases hsf with hle | hlt
            · rw [hbs0] at hle
              exact lt_of_le_of_lt hle threshold_pos
            · exact hlt
          · rw [hb] at hbn; cases hbn
        · exact hall g hg'
      · intro r h
        rw [hstep] at h
        obtain ⟨hθr, hcase⟩ := IH.2 r h
        refine ⟨hθr, ?_⟩
        rcases hcase with ⟨hbr, hrest⟩ | ⟨hlt, pre, post, hsplit, hpre, hpost⟩
        · refine Or.inl ⟨hbr, ?_⟩
          intro g hg
          rcases List.mem_cons.mp hg with rfl | hg'
          · rcases hinv with ⟨hbn, _⟩ | ⟨r0, hb, hbs, hθ⟩
            · rw [hbn] at hbr; cases hbr
            · have hr : r0 = r := by rw [hb] at hbr; injection hbr
              subst hr
              rcases hsf with hle | hlt2
              · rw [hbs] at hle; exact hle
              · exact le_trans (le_of_lt hlt2) hθr
          · exact hrest g hg'
        · refine Or.inr ⟨hlt, f :: pre, post, by simp [hsplit], ?_, hpost⟩
          intro g hg
          rcases List.mem_cons.mp hg with rfl | hg'
          · rcases hsf with hle | hlt2
            · exact lt_of_le_of_lt hle hlt
            · exact lt_of_lt_of_le hlt2 hθr
          · exact hpre g hg'

theorem find_best_match_none_iff (q : String) (files : List MediaRec) :
    find_best_match q files = none
      ↔ ∀ f ∈ files, fuzzy_match_filename q f.name < threshold := by
  constructor
  · intro h
    by_cases hf : files = []
    · subst hf; simp
    · unfold find_best_match at h
      rw [if_neg hf] at h
      exact ((fbmGo_spec q files none 0 (Or.inl ⟨rfl, rfl⟩)).1 h).2
  · intro h
    by_cases hf : files = []
    · subst hf; rfl
    · unfold find_best_match
      rw [if_neg hf]
      exact fbmGo_eq_of_all_low q files none 0 h

theorem find_best_match_some_spec (q : String) (files : List MediaRec) (r : MediaRec)
    (h : find_best_match q files = some r) :
    threshold ≤ fuzzy_match_filename q r.name ∧
    (∀ f ∈ files, fuzzy_match_filename q f.name ≤ fuzzy_match_filename q r.name) ∧
    ∃ pre post, files = pre ++ r :: post ∧
      ∀ f ∈ pre, fuzzy_match_filename q f.name < fuzzy_match_filename q r.name := by
  by_cases hf : files = []
  · subst hf; cases h
  · unfold find_best_match at h
    rw [if_neg hf] at h
    obtain ⟨hθr, hcase⟩ := (fbmGo_spec q files none 0 (Or.inl ⟨rfl, rfl⟩)).2 r h
    rcases hcase with ⟨hbn, _⟩ | ⟨_, pre, post, hsplit, hpre, hpost⟩
    · cases hbn
    · refine ⟨hθr, ?_, pre, post, hsplit, hpre⟩
      intro g hg
      rw [hsplit] at hg
      rcases List.mem_append.mp hg with hg' | hg'
      · exact le_of_lt (hpre g hg')
      · rcases List.mem_cons.mp hg' with rfl | hg''
        · exact le_refl _
        · exact hpost g hg''

/-- C4: for every query and record list, `resolve` scores a record `1.0`
when the lowercased query is a substring of the lowercased
extension-stripped name or vice versa, otherwise scores it with the
normalized similarity ratio, which lies in `[0,1]`; `find_best_match`
returns `none` exactly when no record reaches the `0.3` threshold, and
otherwise returns a record of maximal score that strictly beats every
earlier record's score (so ties keep the first record in catalog order). -/
theorem resolve_scoring_and_selection (q : String) (files : List MediaRec) :
    (∀ f ∈ files,
        0 ≤ fuzzy_match_filename q f.name ∧ fuzzy_match_filename q f.name ≤ 1 ∧
        ((withinList (lowerStr q).data (lowerStr (strStem f.name)).data = true
            ∨ withinList (lowerStr (strStem f.name)).data (lowerStr q).data = true) →
          fuzzy_match_filename q f.name = 1) ∧
        (withinList (lowerStr q).data (lowerStr (strStem f.name)).data = false →
          withinList (lowerStr (strStem f.name)).data (lowerStr q).data = false →
          fuzzy_match_filename q f.name
            = ratioScore (lowerStr q).data (lowerStr (strStem f.name)).data)) ∧
    (find_best_match q files = none
      ↔ ∀ f ∈ files, fuzzy_match_filename q f.name < threshold) ∧
    (∀ r, find_best_match q files = some r →
        threshold ≤ fuzzy_match_filename q r.name ∧
        (∀ f ∈ files, fuzzy_match_filename q f.name ≤ fuzzy_match_filename q r.name) ∧
        ∃ pre post, files = pre ++ r :: post ∧
          ∀ f ∈ pre, fuzzy_match_filename q f.name < fuzzy_match_filename q r.name) := by
  refine ⟨?_, find_best_match_none_iff q files, ?_⟩
  · intro f _
    exact ⟨fuzzy_nonneg q f.name, fuzzy_le_one q f.name,
      fuzzy_eq_one_of_within q f.name, fuzzy_eq_ratio_of_not_within q f.name⟩
  · intro r h
    exact find_best_match_some_spec q files r h

/-- Witness for C4 at the spec's own example: query `superman` against
`Superman.mp4` scores `1.0` by the substring rule and is selected. -/
theorem resolve_scoring_and_selection_witness :
    fuzzy_match_filename "superman" "Superman.mp4" = 1 ∧
    threshold ≤ fuzzy_match_filename "superman" "Superman.mp4" := by
  have h := resolve_scoring_and_selection "superman"
    [⟨"Superman.mp4", "path", 0, ".mp4"⟩]
  obtain ⟨hs, _, hsel⟩ := h
  obtain ⟨_, _, h2, _⟩ := hs ⟨"Superman.mp4", "path", 0, ".mp4"⟩ (by simp)
  have h1 : fuzzy_match_filename "superman" "Superman.mp4" = 1 := h2 (Or.inl (by decide))
  have hfbm : find_best_match "superman" [⟨"Superman.mp4", "path", 0, ".mp4"⟩]
      = some ⟨"Superman.mp4", "path", 0, ".mp4"⟩ := by
    unfold find_best_match
    rw [if_neg (by simp)]
    simp only [fbmGo, h1]
    rw [if_pos (by constructor <;> norm_num [threshold])]
  obtain ⟨hθ, _, _⟩ := hsel ⟨"Superman.mp4", "path", 0, ".mp4"⟩ hfbm
  exact ⟨h1, hθ⟩

/-! ### The IPC channel boundary (C2) -/

/-- C2: the claim that `send_mpv_command` always returns a structured
`(success, message)` pair fails — on an expected response whose reply is
empty (peer closed without data) the Python function falls through its
`if response:` test with no `return` and yields `None`, which the embedding
renders as `none`; on a parsed reply the success flag does equal the test
`error == "success"`, as the claim states. -/
theorem send_empty_reply_returns_no_pair :
    send_mpv_command [JVal.str "cycle", JVal.str "pause"] true
        ⟨true, ConnectOutcome.ok, ReplyOutcome.empty⟩ = none ∧
    (∀ err : Option String,
      (send_mpv_command [JVal.str "cycle", JVal.str "pause"] true
          ⟨true, ConnectOutcome.ok, ReplyOutcome.parsed err⟩).map Prod.fst
        = some (decide (err = some "success"))) := by
  refine ⟨rfl, ?_⟩
  intro err
  by_cases h : err = some "success" <;> simp [send_mpv_command, h]

/-! ### The playback-state invariant (C1) -/

/-- The play environment of the failing input for C1: Linux, target file
present, `mpv` absent, `vlc` present, spawn succeeds. -/
def envFallback : PlayEnv :=
  ⟨.linux, fun _ => true, false, fun p => decide (p = "vlc"), none, 0,
    ⟨⟨false, .ok, .empty⟩, false, none⟩⟩

/-- C1: the PlaybackState invariant is violated by the code — a `play` that
succeeds via the non-IPC `vlc` fallback sets `currentFile` while leaving
`processHandle` unset, starting from the Idle state. -/
theorem fallback_play_breaks_invariant :
    (play_media_file "Superman.mp4" false envFallback ⟨none, none⟩).ok = true ∧
    (play_media_file "Superman.mp4" false envFallback ⟨none, none⟩).state.currentFile
      = some "Superman.mp4" ∧
    (play_media_file "Superman.mp4" false envFallback ⟨none, none⟩).state.proc = none ∧
    ¬ stateInvariant (play_media_file "Superman.mp4" false envFallback ⟨none, none⟩).state := by
  refine ⟨by decide, by decide, by decide, ?_⟩
  intro hinv
  have h2 := hinv (by decide)
  revert h2
  decide

/-! ### Stop: cleanup, forced termination, idempotence (C3, C8) -/

/-- A stop environment in which the graceful `quit` send fails (socket file
exists but the connection is refused, e.g. the player crashed). -/
def envSendFail : StopEnv := ⟨⟨true, .connRefused, .empty⟩, false, none⟩

/-- Counterexample to C3 as stated: with a tracked process, when the
graceful quit send fails (connection refused), the code never force-kills
the process — it skips the wait/kill block entirely, clears the state and
reports success. -/
theorem stop_send_failure_skips_kill :
    (stop_current_playback envSendFail ⟨some 7, some "a.mp4"⟩).events = [StopEvent.sentQuit] ∧
    StopEvent.killed ∉ (stop_current_playback envSendFail ⟨some 7, some "a.mp4"⟩).events ∧
    (stop_current_playback envSendFail ⟨some 7, some "a.mp4"⟩).ok = true ∧
    (stop_current_playback envSendFail ⟨some 7, some "a.mp4"⟩).state = ⟨none, none⟩ := by
  decide

theorem stop_clears_proc (env : StopEnv) (s : ServerState) :
    (stop_current_playback env s).state.proc = none := by
  rcases s with ⟨proc, cf⟩
  cases proc with
  | none => rfl
  | some p =>
    unfold stop_current_playback
    repeat' split
    all_goals simp_all

theorem stop_of_proc_none (env : StopEnv) (s : ServerState) (h : s.proc = none) :
    stop_current_playback env s = ⟨s, true, "No media currently playing", []⟩ := by
  unfold stop_current_playback
  rw [h]

/-- C3 as amended: with a tracked process, `stop()` unconditionally clears
`processHandle` and `currentFile` on every path; a missing socket, an
exception from a process operation, and a timeout of the graceful wait all
degrade to forced termination — but a failure of the quit send itself does
not: the process is left running while the state is cleared and success is
reported. -/
theorem stop_cleanup_and_forced_termination (env : StopEnv) (s : ServerState)
    (h : s.proc ≠ none) :
    ((stop_current_playback env s).state.proc = none ∧
      (stop_current_playback env s).state.currentFile = none) ∧
    (env.ipc.socketExists = false →
      StopEvent.killed ∈ (stop_current_playback env s).events) ∧
    (env.ipc.socketExists = true →
      (send_mpv_command [JVal.str "quit"] false env.ipc).map Prod.fst = some true →
      env.procOpFails ≠ none →
      StopEvent.killed ∈ (stop_current_playback env s).events) ∧
    (env.ipc.socketExists = true →
      (send_mpv_command [JVal.str "quit"] false env.ipc).map Prod.fst = some true →
      env.waitTimesOut = true →
      StopEvent.killed ∈ (stop_current_playback env s).events) ∧
    (env.ipc.socketExists = true →
      (send_mpv_command [JVal.str "quit"] false env.ipc).map Prod.fst = some false →
      StopEvent.killed ∉ (stop_current_playback env s).events) := by
  rcases s with ⟨proc, cf⟩
  cases proc with
  | none => exact absurd rfl h
  | some p =>
    rcases env with ⟨⟨se, co, rp⟩, wt, pf⟩
    cases se <;> cases co <;> cases wt <;> cases pf <;>
      simp [stop_current_playback, send_mpv_command]

/-- Witness for C3 (amended) on a concrete run: tracked process, socket
present, quit sent successfully, wait times out — state is cleared and the
process is force-killed. -/
theorem stop_cleanup_and_forced_termination_witness :
    (stop_current_playback ⟨⟨true, .ok, .empty⟩, true, none⟩
        ⟨some 3, some "x.mp4"⟩).state.proc = none ∧
    StopEvent.killed ∈ (stop_current_playback ⟨⟨true, .ok, .empty⟩, true, none⟩
        ⟨some 3, some "x.mp4"⟩).events := by
  have h := stop_cleanup_and_forced_termination ⟨⟨true, .ok, .empty⟩, true, none⟩
    ⟨some 3, some "x.mp4"⟩ (by decide)
  exact ⟨h.1.1, h.2.2.2.1 rfl (by decide) rfl⟩

/-- C8: `stop()` in the Idle state returns success with the explanatory
message and leaves the state unchanged, and stop is idempotent: after any
stop no process is tracked, so every later stop is the trivial success and
any further chain of stops leaves the state of the first stop unchanged. -/
theorem stop_idle_noop_and_idempotent (env env' : StopEnv) (s : ServerState)
    (envs : List StopEnv) :
    (s.proc = none →
      stop_current_playback env s = ⟨s, true, "No media currently playing", []⟩) ∧
    (stop_current_playback env' (stop_current_playback env s).state
      = ⟨(stop_current_playback env s).state, true, "No media currently playing", []⟩) ∧
    (envs.foldl (fun st e => (stop_current_playback e st).state)
        (stop_current_playback env s).state
      = (stop_current_playback env s).state) := by
  refine ⟨stop_of_proc_none env s, stop_of_proc_none env' _ (stop_clears_proc env s), ?_⟩
  have key : ∀ (l : List StopEnv) (st : ServerState), st.proc = none →
      l.foldl (fun st e => (stop_current_playback e st).state) st = st := by
    intro l
    induction l with
    | nil => intro st _; rfl
    | cons e rest ih =>
      intro st hst
      have hfix : (stop_current_playback e st).state = st := by
        rw [stop_of_proc_none e st hst]
      simp only [List.foldl]
      rw [hfix]
      exact ih st hst
  exact key envs _ (stop_clears_proc env s)

/-- Witness for C8: a concrete Idle stop is the trivial success, and a
second stop after a real stop is the trivial success on the same state. -/
theorem stop_idle_noop_and_idempotent_witness :
    stop_current_playback ⟨⟨false, .ok, .empty⟩, false, none⟩ ⟨none, none⟩
      = ⟨⟨none, none⟩, true, "No media currently playing", []⟩ ∧
    stop_current_playback ⟨⟨false, .ok, .empty⟩, false, none⟩
        (stop_current_playback ⟨⟨true, .ok, .empty⟩, false, none⟩
          ⟨some 5, some "m.mp4"⟩).state
      = ⟨(stop_current_playback ⟨⟨true, .ok, .empty⟩, false, none⟩
            ⟨some 5, some "m.mp4"⟩).state,
          true, "No media currently playing", []⟩ := by
  have h1 := stop_idle_noop_and_idempotent ⟨⟨false, .ok, .empty⟩, false, none⟩
    ⟨⟨false, .ok, .empty⟩, false, none⟩ ⟨none, none⟩ []
  have h2 := stop_idle_noop_and_idempotent ⟨⟨true, .ok, .empty⟩, false, none⟩
    ⟨⟨false, .ok, .empty⟩, false, none⟩ ⟨some 5, some "m.mp4"⟩ []
  exact ⟨h1.1 rfl, h2.2.1⟩

/-! ### The catalog scan (C5) -/

/-- The output of the catalog sort is sorted by name. -/
def namesSorted (l : List MediaRec) : Prop :=
  List.Chain' (fun x y => nameLe x.name y.name = true) l

theorem charListLe_total (a b : List Char) :
    charListLe a b = true ∨ charListLe b a = true := by
  induction a generalizing b with
  | nil => left; rfl
  | cons x as ih =>
    cases b with
    | nil => right; rfl
    | cons y bs =>
      rcases Nat.lt_trichotomy x.toNat y.toNat with hlt | heq | hgt
      · left
        simp [charListLe, hlt]
      · rcases ih bs with h | h
        · left
          simp [charListLe, heq, h]
        · right
          simp [charListLe, heq.symm, h]
      · right
        simp [charListLe, hgt]

theorem nameLe_total (a b : String) : nameLe a b = true ∨ nameLe b a = true :=
  charListLe_total a.data b.data

theorem insertByName_chain (x : MediaRec) :
    ∀ l : List MediaRec, namesSorted l → namesSorted (insertByName x l) := by
  intro l
  induction l with
  | nil => intro _; simp [insertByName, namesSorted]
  | cons y ys ih =>
    intro h
    by_cases hxy : nameLe x.name y.name = true
    · simp only [insertByName, if_pos hxy]
      exact List.chain'_cons.mpr ⟨hxy, h⟩
    · have hyx : nameLe y.name x.name = true := (nameLe_total x.name y.name).resolve_left hxy
      simp only [insertByName, if_neg hxy]
      cases ys with
      | nil =>
        simp only [insertByName]
        exact List.chain'_cons.mpr ⟨hyx, List.chain'_singleton x⟩
      | cons z zs =>
        obtain ⟨hyz, hrest⟩ := List.chain'_cons.mp h
        have hins := ih hrest
        by_cases hxz : nameLe x.name z.name = true
        · rw [insertByName, if_pos hxz] at hins ⊢
          exact List.chain'_cons.mpr ⟨hyx, hins⟩
        · rw [insertByName, if_neg hxz] at hins ⊢
          exact List.chain'_cons.mpr ⟨hyz, hins⟩

theorem sortByName_chain (l : List MediaRec) : namesSorted (sortByName l) := by
  induction l with
  | nil => simp [sortByName, namesSorted]
  | cons x xs ih =>
    have : sortByName (x :: xs) = insertByName x (sortByName xs) := rfl
    rw [this]
    exact insertByName_chain x _ ih

theorem scanGo_append (l : List EntryInfo) :
    ∀ acc : List MediaRec, scanGo l acc = acc ++ scanGo l [] := by
  induction l with
  | nil => intro acc; simp [scanGo]
  | cons e rest ih =>
    intro acc
    by_cases hw : entryWanted e = true
    · by_cases hf : e.statFails = true
      · simp [scanGo, hw, hf]
      · simp only [scanGo, hw, hf, if_pos, if_neg, Bool.not_eq_true]
        rw [ih (acc ++ [mkRec e]), ih ([] ++ [mkRec e])]
        simp
    · simp only [scanGo]
      rw [if_neg (by simp [hw]), if_neg (by simp [hw])]
      exact ih acc

theorem scanGo_eq_filter_scanPart (l : List EntryInfo) :
    scanGo l [] = ((scanPart l).filter entryWanted).map mkRec := by
  induction l with
  | nil => rfl
  | cons e rest ih =>
    by_cases hw : entryWanted e = true
    · by_cases hf : e.statFails = true
      · simp [scanGo, scanPart, hw, hf]
      · have h1 : scanGo (e :: rest) [] = [mkRec e] ++ scanGo rest [] := by
          simp only [scanGo]
          rw [if_pos hw, if_neg (by simp [hf])]
          exact scanGo_append rest [mkRec e]
        have h2 : scanPart (e :: rest) = e :: scanPart rest := by
          simp only [scanPart]
          rw [if_neg (by simp [hf])]
        rw [h1, h2]
        simp [List.filter, hw, ih]
    · have h1 : scanGo (e :: rest) [] = scanGo rest [] := by
        simp only [scanGo]
        rw [if_neg (by simp [hw])]
      have h2 : scanPart (e :: rest) = e :: scanPart rest := by
        simp only [scanPart]
        rw [if_neg (by simp [hw])]
      rw [h1, h2]
      simp [List.filter, hw, ih]

theorem scanPart_of_no_fails (l : List EntryInfo)
    (h : ∀ e ∈ l, e.statFails = false) : scanPart l = l := by
  induction l with
  | nil => rfl
  | cons e rest ih =>
    have he := h e (List.mem_cons_self _ _)
    simp only [scanPart]
    rw [if_neg (by simp [he])]
    rw [ih (fun g hg => h g (List.mem_cons_of_mem _ hg))]

/-- C5 as amended: a non-existent directory yields an empty sequence; the
scan keeps exactly the entries whose (case-insensitively lowered) extension
is in the fixed supported set, sorted by name — but drawn only from the
prefix of the directory listing before the first per-entry I/O failure: a
failing entry aborts the scan of the remaining entries (with one log line)
instead of being skipped while the scan continues. -/
theorem scan_filters_sorts_and_aborts_on_error (env : DirEnv) :
    (env.dirExists = false → get_media_files env = []) ∧
    (env.dirExists = true →
      get_media_files env
        = sortByName (((scanPart env.entries).filter entryWanted).map mkRec)) ∧
    ((∀ e ∈ env.entries, e.statFails = false) → scanPart env.entries = env.entries) ∧
    namesSorted (get_media_files env) := by
  refine ⟨?_, ?_, scanPart_of_no_fails env.entries, ?_⟩
  · intro h
    simp [get_media_files, h]
  · intro h
    simp [get_media_files, h, scanGo_eq_filter_scanPart]
  · by_cases h : env.dirExists = true
    · rw [show get_media_files env = sortByName (scanGo env.entries []) by
        simp [get_media_files, h]]
      exact sortByName_chain _
    · rw [show get_media_files env = [] by simp [get_media_files, h]]
      exact List.chain'_nil

/-- Witness for C5 (amended) on a concrete directory: one wanted entry, one
unwanted entry, no failures — the scan filters and the result is sorted. -/
theorem scan_filters_sorts_and_aborts_on_error_witness :
    get_media_files ⟨true, [⟨"b.mp4", true, 2, false⟩, ⟨"a.txt", true, 1, false⟩]⟩
      = sortByName (((scanPart [⟨"b.mp4", true, 2, false⟩, ⟨"a.txt", true, 1, false⟩]).filter
          entryWanted).map mkRec) ∧
    scanPart [(⟨"b.mp4", true, 2, false⟩ : EntryInfo), ⟨"a.txt", true, 1, false⟩]
      = [⟨"b.mp4", true, 2, false⟩, ⟨"a.txt", true, 1, false⟩] ∧
    namesSorted (get_media_files
      ⟨true, [⟨"b.mp4", true, 2, false⟩, ⟨"a.txt", true, 1, false⟩]⟩) := by
  have h := scan_filters_sorts_and_aborts_on_error
    ⟨true, [⟨"b.mp4", true, 2, false⟩, ⟨"a.txt", true, 1, false⟩]⟩
  exact ⟨h.2.1 rfl, h.2.2.1 (by decide), h.2.2.2⟩

/-- Counterexample to C5 as stated: in a directory listing `a.mp4` (ok),
`b.mp4` (stat fails), `c.mp4` (ok), the scan returns only `a.mp4` — the
failing entry is not skipped-and-continued, it aborts the rest, so `c.mp4`
is missing from the result the claim requires it to be in. -/
theorem scan_aborts_instead_of_skipping :
    get_media_files ⟨true, [⟨"a.mp4", true, 1, false⟩, ⟨"b.mp4", true, 1, true⟩,
        ⟨"c.mp4", true, 1, false⟩]⟩
      = [mkRec ⟨"a.mp4", true, 1, false⟩] ∧
    mkRec ⟨"c.mp4", true, 1, false⟩ ∉ get_media_files ⟨true,
      [⟨"a.mp4", true, 1, false⟩, ⟨"b.mp4", true, 1, true⟩, ⟨"c.mp4", true, 1, false⟩]⟩ := by
  decide

/-! ### Exact match short-circuits fuzzy matching (C6) -/

theorem find_exact_of_unique (q : String) (files : List MediaRec) (e : MediaRec)
    (huniq : ∀ f ∈ files, ∀ g ∈ files, lowerStr f.name = lowerStr g.name → f = g)
    (hmem : e ∈ files) (he : lowerStr e.name = lowerStr q) :
    files.find? (fun f => decide (lowerStr f.name = lowerStr q)) = some e := by
  induction files with
  | nil => cases hmem
  | cons g rest ih =>
    by_cases hg : lowerStr g.name = lowerStr q
    · have hge : g = e :=
        huniq g (List.mem_cons_self _ _) e hmem (hg.trans he.symm)
      rw [List.find?_cons_of_pos _ (by simp [hg]), hge]
    · have hem : e ∈ rest := by
        rcases List.mem_cons.mp hmem with rfl | hr
        · exact absurd he hg
        · exact hr
      rw [List.find?_cons_of_neg _ (by simp [hg])]
      exact ih
        (fun f hf g' hg' => huniq f (List.mem_cons_of_mem _ hf) g' (List.mem_cons_of_mem _ hg'))
        hem

/-- C6: for a query that is an exact case-insensitive match of a catalog
entry's name (names being case-insensitively unique per the data model),
the `play_movie` branch selects that entry and never evaluates the fuzzy
computation (`find_best_match` / per-record scoring). -/
theorem exact_match_short_circuits_fuzzy (q : String) (loop : Bool) (env : ToolEnv)
    (s : ServerState) (e : MediaRec)
    (hq : q ≠ "")
    (huniq : ∀ f ∈ get_media_files env.dir, ∀ g ∈ get_media_files env.dir,
        lowerStr f.name = lowerStr g.name → f = g)
    (hmem : e ∈ get_media_files env.dir)
    (he : lowerStr e.name = lowerStr q) :
    (call_tool (.playMovie q loop) env s).usedFuzzy = false ∧
    (call_tool (.playMovie q loop) env s).chosen = some e.name := by
  have hfind := find_exact_of_unique q (get_media_files env.dir) e huniq hmem he
  simp only [call_tool]
  rw [if_neg hq, hfind]
  exact ⟨rfl, rfl⟩

/-- Witness for C6: the query `SUPERMAN.MP4` exactly matches the catalog
name `Superman.mp4` up to case, so fuzzy matching is skipped and that entry
is selected. -/
theorem exact_match_short_circuits_fuzzy_witness :
    (call_tool (.playMovie "SUPERMAN.MP4" false)
        ⟨⟨true, [⟨"Superman.mp4", true, 5, false⟩]⟩, ⟨false, .ok, .empty⟩,
          envFallback, envSendFail⟩ ⟨none, none⟩).usedFuzzy = false ∧
    (call_tool (.playMovie "SUPERMAN.MP4" false)
        ⟨⟨true, [⟨"Superman.mp4", true, 5, false⟩]⟩, ⟨false, .ok, .empty⟩,
          envFallback, envSendFail⟩ ⟨none, none⟩).chosen
      = some "Superman.mp4" := by
  have hgmf : get_media_files (⟨true, [⟨"Superman.mp4", true, 5, false⟩]⟩ : DirEnv)
      = [mkRec ⟨"Superman.mp4", true, 5, false⟩] := by decide
  have h := exact_match_short_circuits_fuzzy "SUPERMAN.MP4" false
    ⟨⟨true, [⟨"Superman.mp4", true, 5, false⟩]⟩, ⟨false, .ok, .empty⟩,
      envFallback, envSendFail⟩ ⟨none, none⟩ (mkRec ⟨"Superman.mp4", true, 5, false⟩)
    (by decide)
    (by
      intro f hf g hg _
      rw [hgmf] at hf hg
      rw [List.mem_singleton] at hf hg
      rw [hf, hg])
    (by rw [hgmf]; exact List.mem_singleton_self _)
    (by decide)
  exact ⟨h.1, h.2⟩

/-! ### No match: the not-found report (C7) -/

theorem joinLines_mem_piece (L : List String) (x : String) (hx : x ∈ L) :
    ∃ l r, (joinLines L).data = l ++ x.data ++ r := by
  induction L with
  | nil => cases hx
  | cons a as ih =>
    rcases List.mem_cons.mp hx with rfl | hx'
    · cases as with
      | nil => exact ⟨[], [], by simp [joinLines]⟩
      | cons b bs =>
        refine ⟨[], ("\n" ++ joinLines (b :: bs)).data, ?_⟩
        simp [joinLines, String.data_append]
    · cases as with
      | nil => cases hx'
      | cons b bs =>
        obtain ⟨l, r, hlr⟩ := ih hx'
        refine ⟨(a ++ "\n").data ++ l, r, ?_⟩
        simp [joinLines, String.data_append, hlr]

theorem ratioScore_eq_zero (a b : List Char) (h : lcsLen a b = 0)
    (hne : a.length + b.length ≠ 0) : ratioScore a b = 0 := by
  unfold ratioScore
  rw [if_neg hne, h]
  simp

/-- C7: when no catalog name matches the query exactly (case-insensitively)
and every score is below the threshold, `find_best_match` returns nothing
and the `play_movie` branch returns the not-found message, which contains
the query and lists every catalog entry's name. -/
theorem no_match_reports_query_and_catalog (q : String) (loop : Bool) (env : ToolEnv)
    (s : ServerState)
    (hq : q ≠ "")
    (hnx : ∀ f ∈ get_media_files env.dir, lowerStr f.name ≠ lowerStr q)
    (hlow : ∀ f ∈ get_media_files env.dir, fuzzy_match_filename q f.name < threshold) :
    find_best_match q (get_media_files env.dir) = none ∧
    (call_tool (.playMovie q loop) env s).res
      = some (notFoundMsg q (get_media_files env.dir)) ∧
    (∃ l r, (notFoundMsg q (get_media_files env.dir)).data = l ++ q.data ++ r) ∧
    (∀ f ∈ get_media_files env.dir, ∃ l r,
      (notFoundMsg q (get_media_files env.dir)).data
        = l ++ ("- " ++ f.name).data ++ r) := by
  have hfbm : find_best_match q (get_media_files env.dir) = none :=
    (find_best_match_none_iff q _).mpr hlow
  have hfind : (get_media_files env.dir).find?
      (fun f => decide (lowerStr f.name = lowerStr q)) = none := by
    rw [List.find?_eq_none]
    intro f hf
    simp [hnx f hf]
  refine ⟨hfbm, ?_, ?_, ?_⟩
  · simp only [call_tool]
    rw [if_neg hq, hfind, hfbm]
  · refine ⟨("No media file found matching \x27").data,
      ("\x27. Available files:\n" ++ joinLines ((get_media_files env.dir).map
        (fun f => "- " ++ f.name))).data, ?_⟩
    simp [notFoundMsg, String.data_append]
  · intro f hf
    obtain ⟨l, r, hlr⟩ := joinLines_mem_piece _ ("- " ++ f.name)
      (List.mem_map_of_mem (fun g : MediaRec => "- " ++ g.name) hf)
    refine ⟨("No media file found matching \x27" ++ q
      ++ "\x27. Available files:\n").data ++ l, r, ?_⟩
    simp [notFoundMsg, String.data_append, hlr]

/-- The tool environment of the C7 witness: a catalog holding only
`Superman.mp4`. -/
def envNoMatch : ToolEnv :=
  ⟨⟨true, [⟨"Superman.mp4", true, 5, false⟩]⟩, ⟨false, .ok, .empty⟩,
    envFallback, envSendFail⟩

/-- Witness for C7 at the spec's own example: `zzqqxx` has no exact match
and zero similarity to `Superman.mp4`, so resolution fails and the
not-found message is returned. -/
theorem no_match_reports_query_and_catalog_witness :
    find_best_match "zzqqxx" (get_media_files envNoMatch.dir) = none ∧
    (call_tool (.playMovie "zzqqxx" false) envNoMatch ⟨none, none⟩).res
      = some (notFoundMsg "zzqqxx" (get_media_files envNoMatch.dir)) := by
  have hgm : get_media_files envNoMatch.dir = [mkRec ⟨"Superman.mp4", true, 5, false⟩] := by
    decide
  have hlcs : lcsLen (lowerStr "zzqqxx").data (lowerStr (strStem "Superman.mp4")).data = 0 :=
    lcsLen_eq_zero_of_disjoint _ _ (by decide)
  have hfz : fuzzy_match_filename "zzqqxx" "Superman.mp4" = 0 :=
    (fuzzy_eq_ratio_of_not_within "zzqqxx" "Superman.mp4" (by decide) (by decide)).trans
      (ratioScore_eq_zero _ _ hlcs (by decide))
  have h := no_match_reports_query_and_catalog "zzqqxx" false envNoMatch ⟨none, none⟩
    (by decide)
    (by
      intro f hf
      rw [hgm, List.mem_singleton] at hf
      subst hf
      decide)
    (by
      intro f hf
      rw [hgm, List.mem_singleton] at hf
      subst hf
      show fuzzy_match_filename "zzqqxx" "Superman.mp4" < threshold
      rw [hfz]
      exact threshold_pos)
  exact ⟨h.1, h.2.1⟩

/-! ### Seek symmetry and state-blindness of control commands (C9, C10) -/

theorem ipcToolResult_sent (c : List JVal) (env : ToolEnv) (s : ServerState) :
    (ipcToolResult c env s).sent = [c] := by
  unfold ipcToolResult
  cases hs : send_mpv_command c true env.ipc with
  | none => rfl
  | some r => rcases r with ⟨ok, m⟩; rfl

/-- C9: `seekForward(s)` issues exactly the IPC command
`["seek", s, "relative"]` and `seekBackward(s)` exactly
`["seek", -s, "relative"]`, so the pair carries additive-inverse relative
offsets, with no reference to any player-reported absolute position. -/
theorem seek_commands_inverse_offsets (sec : ℚ) (env : ToolEnv) (s : ServerState) :
    (call_tool (.seekForward sec) env s).sent
      = [[JVal.str "seek", JVal.num sec, JVal.str "relative"]] ∧
    (call_tool (.seekBackward sec) env s).sent
      = [[JVal.str "seek", JVal.num (-sec), JVal.str "relative"]] ∧
    offsetOf [JVal.str "seek", JVal.num sec, JVal.str "relative"]
      + offsetOf [JVal.str "seek", JVal.num (-sec), JVal.str "relative"] = 0 := by
  refine ⟨?_, ?_, ?_⟩
  · simp only [call_tool]
    exact ipcToolResult_sent _ env s
  · simp only [call_tool]
    exact ipcToolResult_sent _ env s
  · simp only [offsetOf]
    ring

theorem ipcToolResult_state_blind (c : List JVal) (env : ToolEnv) (s1 s2 : ServerState) :
    (ipcToolResult c env s1).res = (ipcToolResult c env s2).res ∧
    (ipcToolResult c env s1).flag = (ipcToolResult c env s2).flag := by
  unfold ipcToolResult
  cases hs : send_mpv_command c true env.ipc with
  | none => exact ⟨rfl, rfl⟩
  | some r => rcases r with ⟨ok, m⟩; exact ⟨rfl, rfl⟩

/-- C10: for every control command other than play and stop (pause, seek
forward/backward, chapter next/previous, toggle-loop, restart), the
returned flag and message depend only on the arguments and the IPC channel
condition: two invocations against different tracked playback states give
identical results. -/
theorem control_results_ignore_playback_state (env : ToolEnv) (s1 s2 : ServerState)
    (sec : ℚ) :
    ((call_tool .pausePlayback env s1).res = (call_tool .pausePlayback env s2).res ∧
      (call_tool .pausePlayback env s1).flag = (call_tool .pausePlayback env s2).flag) ∧
    ((call_tool (.seekForward sec) env s1).res = (call_tool (.seekForward sec) env s2).res ∧
      (call_tool (.seekForward sec) env s1).flag
        = (call_tool (.seekForward sec) env s2).flag) ∧
    ((call_tool (.seekBackward sec) env s1).res = (call_tool (.seekBackward sec) env s2).res ∧
      (call_tool (.seekBackward sec) env s1).flag
        = (call_tool (.seekBackward sec) env s2).flag) ∧
    ((call_tool .nextChapter env s1).res = (call_tool .nextChapter env s2).res ∧
      (call_tool .nextChapter env s1).flag = (call_tool .nextChapter env s2).flag) ∧
    ((call_tool .prevChapter env s1).res = (call_tool .prevChapter env s2).res ∧
      (call_tool .prevChapter env s1).flag = (call_tool .prevChapter env s2).flag) ∧
    ((call_tool .toggleLoop env s1).res = (call_tool .toggleLoop env s2).res ∧
      (call_tool .toggleLoop env s1).flag = (call_tool .toggleLoop env s2).flag) ∧
    ((call_tool .restartPlayback env s1).res = (call_tool .restartPlayback env s2).res ∧
      (call_tool .restartPlayback env s1).flag
        = (call_tool .restartPlayback env s2).flag) := by
  refine ⟨?_, ?_, ?_, ?_, ?_, ?_, ?_⟩ <;>
    · simp only [call_tool]
      exact ipcToolResult_state_blind _ env s1 s2

